import Mathlib

/-!
Verification development for the ArchDrop transfer core.

Shallow embedding of the Rust sources (src/crypto, src/transfer,
src/server) into Lean.  Bytes are modelled as `Nat` (with explicit
`% 256` / `% 2 ^ 64` where machine arithmetic matters), Rust strings as
`List Char`, fallible or panicking Rust code as `Option` / `Except`.
External crates (aes_gcm, sha2, base64) are modelled by executable Lean
functions that keep the interface properties the code relies on; the
repository code itself is translated statement by statement.
-/

namespace ArchDrop

/-! ## Basic byte helpers -/

/-- The NUL character, written `\0` in Rust string literals. -/
def nulChar : Char := Char.ofNat 0

deriving instance DecidableEq for Except

/-- Big-endian byte representation of a `u32`, as in `u32::to_be_bytes`. -/
def beBytes4 (c : Nat) : List Nat :=
  [c / 2 ^ 24 % 256, c / 2 ^ 16 % 256, c / 2 ^ 8 % 256, c % 256]

/-- Lowercase hex digit for a nibble: `0-9` then `a-f`. -/
def hexDigit (n : Nat) : Char :=
  if n % 16 < 10 then Char.ofNat (48 + n % 16) else Char.ofNat (87 + n % 16)

/-- `hex::encode`: two lowercase hex digits per byte. -/
def hexEncode (bs : List Nat) : List Char :=
  bs.flatMap (fun b => [hexDigit (b / 16 % 16), hexDigit (b % 16)])

/-- Model of `<[u8]>::copy_from_slice`: Rust panics when the two slices
have different lengths, which we model as `none`. -/
def copyFromSlice (dst src : List Nat) : Option (List Nat) :=
  if dst.length = src.length then some src else none

/-! ## URL-safe base64 without padding (model of the base64 crate) -/

/-- The URL-safe base64 alphabet used by `URL_SAFE_NO_PAD`:
`A-Z`, `a-z`, `0-9`, `-`, `_`. -/
def b64Alphabet : List Char :=
  (List.range 26).map (fun i => Char.ofNat (65 + i)) ++
  (List.range 26).map (fun i => Char.ofNat (97 + i)) ++
  (List.range 10).map (fun i => Char.ofNat (48 + i)) ++ ['-', '_']

/-- Character for a six-bit value. -/
def charOfSextet (v : Nat) : Char := b64Alphabet.getD v 'A'

/-- Six-bit value of an alphabet character, `none` outside the alphabet. -/
def sextetOfChar (c : Char) : Option Nat := b64Alphabet.indexOf? c

/-- Modelled from the spec: URL-safe base64 encoding without padding of
the base64 crate (an external library, not part of src/). -/
def b64Encode : List Nat → List Char
  | [] => []
  | [a] => [charOfSextet (a / 4), charOfSextet (a % 4 * 16)]
  | [a, b] => [charOfSextet (a / 4), charOfSextet (a % 4 * 16 + b / 16),
               charOfSextet (b % 16 * 4)]
  | a :: b :: c :: rest =>
      charOfSextet (a / 4) :: charOfSextet (a % 4 * 16 + b / 16) ::
      charOfSextet (b % 16 * 4 + c / 64) :: charOfSextet (c % 64) ::
      b64Encode rest

/-- Modelled from the spec: URL-safe base64 decoding without padding of
the base64 crate (an external library, not part of src/). -/
def b64Decode : List Char → Option (List Nat)
  | [] => some []
  | [_] => none
  | [c1, c2] => do
      let v1 ← sextetOfChar c1
      let v2 ← sextetOfChar c2
      pure [v1 * 4 + v2 / 16]
  | [c1, c2, c3] => do
      let v1 ← sextetOfChar c1
      let v2 ← sextetOfChar c2
      let v3 ← sextetOfChar c3
      pure [v1 * 4 + v2 / 16, v2 % 16 * 16 + v3 / 4]
  | c1 :: c2 :: c3 :: c4 :: rest => do
      let v1 ← sextetOfChar c1
      let v2 ← sextetOfChar c2
      let v3 ← sextetOfChar c3
      let v4 ← sextetOfChar c4
      let tail ← b64Decode rest
      pure ((v1 * 4 + v2 / 16) :: (v2 % 16 * 16 + v3 / 4) ::
            (v3 % 4 * 64 + v4) :: tail)

/-! ## AEAD model (aes_gcm crate, external)

AES-256-GCM itself is an external crate.  We model it by an executable
cipher with the interface properties the repository relies on: a
ciphertext is plaintext combined bytewise with a keystream determined by
(key, 12-byte nonce, position), followed by a 16-byte tag determined by
(key, nonce, ciphertext); decryption checks the tag and inverts the
combination. -/

/-- Modelled from the spec: the AES-256-GCM keystream byte at a given
position, determined by key and 12-byte nonce (external aes_gcm crate). -/
def keystreamByte (key nonce12 : List Nat) (i : Nat) : Nat :=
  (key.foldl (fun a b => a * 131 + b) 7 +
   nonce12.foldl (fun a b => a * 257 + b) 11 + i * 37) % 256

/-- Modelled from the spec: the 16-byte AES-GCM authentication tag over a
ciphertext (external aes_gcm crate). -/
def gcmTag (key nonce12 ct : List Nat) : List Nat :=
  (List.range 16).map fun i =>
    (key.foldl (fun a b => a * 31 + b) 3 +
     nonce12.foldl (fun a b => a * 17 + b) 5 +
     ct.foldl (fun a b => a * 33 + b) 13 + ct.length * 9 + i * 29) % 256

/-- Modelled from the spec: `Aes256Gcm::encrypt` (external aes_gcm
crate).  Output is ciphertext followed by the 16-byte tag. -/
def aeadEncrypt (key nonce12 pt : List Nat) : List Nat :=
  (pt.mapIdx fun i b => (b + keystreamByte key nonce12 i) % 256) ++
    gcmTag key nonce12 (pt.mapIdx fun i b => (b + keystreamByte key nonce12 i) % 256)

/-- Modelled from the spec: `Aes256Gcm::decrypt` (external aes_gcm
crate).  Splits off the 16-byte tag, verifies it, and inverts the
keystream combination; `none` on authentication failure. -/
def aeadDecrypt (key nonce12 data : List Nat) : Option (List Nat) :=
  if data.length < 16 then none
  else
    let ct := data.take (data.length - 16)
    let tag := data.drop (data.length - 16)
    if tag = gcmTag key nonce12 ct then
      some (ct.mapIdx fun i b => (b + 256 - keystreamByte key nonce12 i) % 256)
    else none

/-! ## SHA-256 model (sha2 crate, external) -/

/-- Modelled from the spec: the 32-byte SHA-256 digest of a byte stream
(external sha2 crate).  An executable stand-in determined by the full
input; the code under verification only forwards bytes into the hasher
and reads the final digest. -/
def sha256Digest (data : List Nat) : List Nat :=
  (List.range 32).map fun i =>
    (data.foldl (fun a b => (a * 33 + b + 7) % 4294967296) (i * 5 + 11)) % 256

/-! ## src/crypto/types.rs -/

/-- `EncryptionKey([u8; 32])` from src/crypto/types.rs. -/
structure EncryptionKey where
  bytes : List Nat
deriving DecidableEq, Repr

/-- `Nonce([u8; 7])` from src/crypto/types.rs: the 7-byte nonce base. -/
structure Nonce where
  bytes : List Nat
deriving DecidableEq, Repr

/-- `Nonce::to_base64` from src/crypto/types.rs. -/
def Nonce.to_base64 (n : Nonce) : List Char := b64Encode n.bytes

/-- `Nonce::from_base64` from src/crypto/types.rs: base64-decode and
require exactly 7 bytes. -/
def Nonce.from_base64 (s : List Char) : Except Unit Nonce :=
  match b64Decode s with
  | none => .error ()
  | some bs => if bs.length = 7 then .ok ⟨bs⟩ else .error ()

/-- `Nonce::with_counter` from src/crypto/types.rs, lines 79-85.  The
source copies the 7 nonce-base bytes into `full_nonce[..8]` (an 8-byte
slice) and the 4 counter bytes into `full_nonce[7..12]` (a 5-byte
slice); `copy_from_slice` panics on either length mismatch, modelled as
`none`. -/
def Nonce.with_counter (n : Nonce) (counter : Nat) : Option (List Nat) :=
  let full : List Nat := List.replicate 12 0
  match copyFromSlice (full.take 8) n.bytes with
  | none => none
  | some seg1 =>
    let full1 := seg1 ++ full.drop 8
    match copyFromSlice ((full1.drop 7).take 5) (beBytes4 counter) with
    | none => none
    | some seg2 => some (full1.take 7 ++ seg2)

/-! ## src/crypto/decrypt.rs -/

/-- The inline nonce construction of `decrypt_chunk_at_position`
(src/crypto/decrypt.rs): `full_nonce[..7] = base`,
`full_nonce[7..11] = counter.to_be_bytes()`, byte 11 left zero. -/
def buildNonce12 (base : List Nat) (counter : Nat) : Option (List Nat) :=
  let full : List Nat := List.replicate 12 0
  match copyFromSlice (full.take 7) base with
  | none => none
  | some seg1 =>
    let full1 := seg1 ++ full.drop 7
    match copyFromSlice ((full1.drop 7).take 4) (beBytes4 counter) with
    | none => none
    | some seg2 => some (full1.take 7 ++ seg2 ++ full1.drop 11)

/-- `decrypt_chunk_at_position` from src/crypto/decrypt.rs: build the
12-byte nonce inline, construct the cipher from the key, decrypt. -/
def decrypt_chunk_at_position (key : EncryptionKey) (nonceBase : Nonce)
    (encryptedData : List Nat) (counter : Nat) : Except Unit (List Nat) :=
  match buildNonce12 nonceBase.bytes counter with
  | none => .error ()
  | some n12 =>
    match aeadDecrypt key.bytes n12 encryptedData with
    | none => .error ()
    | some pt => .ok pt

/-! ## src/crypto/encryption.rs -/

/-- `encrypt_chunk_at_position` from src/crypto/encryption.rs: the nonce
is built by `Nonce::with_counter`; its panic is propagated as `none`
(the cipher argument is modelled by its key bytes). -/
def encrypt_chunk_at_position (cipherKey : EncryptionKey) (nonceBase : Nonce)
    (plaintext : List Nat) (counter : Nat) : Option (List Nat) :=
  match nonceBase.with_counter counter with
  | none => none
  | some n12 => some (aeadEncrypt cipherKey.bytes n12 plaintext)

/-! ## src/lib.rs, module config -/

/-- `CHUNK_SIZE` from src/lib.rs: 1 MiB. -/
def CHUNK_SIZE : Nat := 1024 * 1024

/-- `MEMORY_THRESHOLD` from src/lib.rs: 100 MiB. -/
def MEMORY_THRESHOLD : Nat := 100 * 1024 * 1024

/-- The modulus of `u64` arithmetic. -/
def U64 : Nat := 2 ^ 64

/-! ## src/transfer/storage.rs

`ChunkStorage` is the per-file destination writer.  File-system effects
(directory creation, file creation) are recorded as an explicit trace;
the bytes written to the destination file are carried in the state (for
`DirectWrite`) or produced by `finalize` (for `Memory`). -/

/-- A recorded file-system side effect. -/
inductive FsOp where
  | createDirAll (path : List Char)
  | createFile (path : List Char)
deriving DecidableEq, Repr

/-- The `HashMap<usize, Vec<u8>>` of the `Memory` variant, modelled as an
association list where `insert` replaces an existing key. -/
abbrev AssocChunks := List (Nat × List Nat)

/-- `HashMap::get`. -/
def lookupChunk : AssocChunks → Nat → Option (List Nat)
  | [], _ => none
  | p :: rest, k => if p.fst = k then some p.snd else lookupChunk rest k

/-- Whether an `Except` carries a success value. -/
def isOkE {ε α : Type} : Except ε α → Bool
  | .ok _ => true
  | .error _ => false

/-- `HashMap::insert`: replaces the value of an existing key. -/
def insertChunk (m : AssocChunks) (k : Nat) (v : List Nat) : AssocChunks :=
  match m with
  | [] => [(k, v)]
  | p :: rest => if p.fst = k then (k, v) :: rest else p :: insertChunk rest k v

/-- `enum ChunkStorage` from src/transfer/storage.rs.  The `DirectWrite`
variant carries the bytes written to the destination so far (the file is
written sequentially by `write_all`, with no seek), the hasher state
(the bytes fed to `Sha256::update`), the `chunks_received` set and the
`PartialFileGuard` armed flag. -/
inductive ChunkStorage where
  | memory (chunks : AssocChunks)
  | directWrite (written : List Nat) (hasherFed : List Nat)
      (chunksReceived : List Nat) (armed : Bool)
deriving DecidableEq, Repr

/-- `ChunkStorage::new` from src/transfer/storage.rs: sizes strictly
below `MEMORY_THRESHOLD` get the in-memory variant and touch the file
system not at all; larger sizes create the parent directory and the
destination file immediately. -/
def ChunkStorage.new (fileSize : Nat) (destPath : List Char) :
    ChunkStorage × List FsOp :=
  if fileSize < MEMORY_THRESHOLD then
    (ChunkStorage.memory [], [])
  else
    (ChunkStorage.directWrite [] [] [] true,
     [FsOp.createDirAll destPath, FsOp.createFile destPath])

/-- `ChunkStorage::has_chunk` from src/transfer/storage.rs. -/
def ChunkStorage.has_chunk (s : ChunkStorage) (chunkIndex : Nat) : Bool :=
  match s with
  | .memory chunks => (lookupChunk chunks chunkIndex).isSome
  | .directWrite _ _ received _ => chunkIndex ∈ received

/-- `ChunkStorage::chunk_count` from src/transfer/storage.rs. -/
def ChunkStorage.chunk_count (s : ChunkStorage) : Nat :=
  match s with
  | .memory chunks => chunks.length
  | .directWrite _ _ received _ => received.length

/-- `HashSet::insert` on the `chunks_received` set. -/
def insertReceived (received : List Nat) (i : Nat) : List Nat :=
  if i ∈ received then received else received ++ [i]

/-- `ChunkStorage::store_chunk` from src/transfer/storage.rs.  The
`Memory` variant inserts the raw ciphertext into the map without
decrypting and without touching the file system.  The `DirectWrite`
variant decrypts, feeds the plaintext to the hasher, appends it to the
file at the current write position (the source calls `write_all` with
no seek), and records the index. -/
def ChunkStorage.store_chunk (s : ChunkStorage) (chunkIndex : Nat)
    (encryptedData : List Nat) (key : EncryptionKey) (nonce : Nonce) :
    Except Unit ChunkStorage :=
  match s with
  | .memory chunks => .ok (ChunkStorage.memory (insertChunk chunks chunkIndex encryptedData))
  | .directWrite written hasherFed received armed =>
    match decrypt_chunk_at_position key nonce encryptedData chunkIndex with
    | .error _ => .error ()
    | .ok decrypted =>
      .ok (ChunkStorage.directWrite (written ++ decrypted)
            (hasherFed ++ decrypted) (insertReceived received chunkIndex) armed)

/-- The value returned by `ChunkStorage::finalize`, together with the
bytes that ended up in the destination file and the file operations the
call performed. -/
structure FinalizeResult where
  hash : List Char
  file : List Nat
  ops : List FsOp
deriving DecidableEq, Repr

/-- The `for i in 0..total_chunks` loop of the `Memory` branch of
`ChunkStorage::finalize`: look each index up, decrypt it, and
concatenate the plaintexts; the first missing or undecryptable chunk
aborts with an error. -/
def memAssemble (chunks : AssocChunks) (key : EncryptionKey) (nonce : Nonce) :
    List Nat → Except Unit (List Nat)
  | [] => .ok []
  | i :: rest =>
    match lookupChunk chunks i with
    | none => .error ()
    | some enc =>
      match decrypt_chunk_at_position key nonce enc i with
      | .error _ => .error ()
      | .ok dec =>
        match memAssemble chunks key nonce rest with
        | .error e => .error e
        | .ok tail => .ok (dec ++ tail)

/-- `ChunkStorage::finalize` from src/transfer/storage.rs.  The `Memory`
variant creates the destination file only now, decrypts the chunks in
index order `0 .. total_chunks`, writes and hashes them, and returns the
hex digest.  The `DirectWrite` variant only flushes what was already
written, disarms the guard and returns the digest of the bytes fed to
the hasher during `store_chunk`. -/
def ChunkStorage.finalize (s : ChunkStorage) (destPath : List Char)
    (key : EncryptionKey) (nonce : Nonce) (totalChunks : Nat) :
    Except Unit FinalizeResult :=
  match s with
  | .memory chunks =>
    match memAssemble chunks key nonce (List.range totalChunks) with
    | .error e => .error e
    | .ok bytes =>
      .ok { hash := hexEncode (sha256Digest bytes), file := bytes,
            ops := [FsOp.createFile destPath] }
  | .directWrite written hasherFed _ _ =>
    .ok { hash := hexEncode (sha256Digest hasherFed), file := written, ops := [] }

/-- Folding `store_chunk` over a list of `(index, ciphertext)` pairs, the
order in which the chunks arrive at the server. -/
def storeAll (key : EncryptionKey) (nonce : Nonce) (s : ChunkStorage) :
    List (Nat × List Nat) → Except Unit ChunkStorage
  | [] => .ok s
  | (i, d) :: rest =>
    match s.store_chunk i d key nonce with
    | .error e => .error e
    | .ok s2 => storeAll key nonce s2 rest

/-! ## src/server/session.rs -/

/-- The state of `SessionCore` from src/server/session.rs: the token and
the two `AtomicBool` flags.  The struct has no client-identity field. -/
structure SessionCore where
  token : List Char
  active : Bool
  completed : Bool
deriving DecidableEq, Repr

/-- `SessionCore::claim` from src/server/session.rs, lines 61-68: reject
a mismatched token, then `compare_exchange(false, true)` on the `active`
flag — the call succeeds only on the transition from `false` to `true`,
so any second claim returns `false`.  Returns the result and the updated
state. -/
def SessionCore.claim (s : SessionCore) (token : List Char) :
    Bool × SessionCore :=
  if token ≠ s.token then (false, s)
  else if s.active then (false, s)
  else (true, { s with active := true })

/-- `SessionCore::is_active` from src/server/session.rs, lines 70-74.
No client identity is consulted. -/
def SessionCore.is_active (s : SessionCore) (token : List Char) : Bool :=
  token = s.token && s.active && !s.completed

/-- `SessionCore::complete` from src/server/session.rs, lines 76-82:
fails on a token mismatch or when `active` is still `false`; otherwise
sets the `completed` flag (even when it was already set) and returns
`true`. -/
def SessionCore.complete (s : SessionCore) (token : List Char) :
    Bool × SessionCore :=
  if token ≠ s.token ∨ s.active = false then (false, s)
  else (true, { s with completed := true })

/-! ## src/transfer/security.rs — path handling

Rust `std::path` component iteration on Unix, modelled from the std
documentation (std is an external library): split on the separator,
drop empty parts, keep a leading `.` of a relative path, turn `..` into
`ParentDir`, prefix a `RootDir` for absolute paths.  `Prefix` components
exist only on Windows and never arise here. -/

/-- `enum PathValidationError` from src/transfer/security.rs. -/
inductive PathValidationError where
  | containsParentDir
  | absolutePath
  | invalidComponent
  | nullByte
  | empty
deriving DecidableEq, Repr

/-- A `std::path::Component` on Unix. -/
inductive PathComp where
  | rootDir
  | curDir
  | parentDir
  | normal (s : List Char)
deriving DecidableEq, Repr

/-- Split a string at `/` separators (empty parts included). -/
def splitSlash : List Char → List (List Char)
  | [] => [[]]
  | c :: rest =>
    if c = '/' then [] :: splitSlash rest
    else
      match splitSlash rest with
      | [] => [[c]]
      | p :: ps => (c :: p) :: ps

/-- Normalization step of the component iterator: `.` parts are dropped
except as the first component of a relative path, `..` is `ParentDir`,
everything else is `Normal`. -/
def normalizeParts : List (List Char) → Bool → List PathComp
  | [], _ => []
  | p :: rest, isFirst =>
    if p = ['.'] then
      (if isFirst then [PathComp.curDir] else []) ++ normalizeParts rest false
    else if p = ['.', '.'] then
      PathComp.parentDir :: normalizeParts rest false
    else
      PathComp.normal p :: normalizeParts rest false

/-- `Path::components` on Unix. -/
def componentsOf (s : List Char) : List PathComp :=
  let isAbs : Bool := s.head? = some '/'
  let parts := (splitSlash s).filter (fun q => q ≠ [])
  (if isAbs then [PathComp.rootDir] else []) ++ normalizeParts parts (!isAbs)

/-- `Path::is_absolute` on Unix: the path has a root. -/
def isAbsolute (s : List Char) : Bool := s.head? = some '/'

/-- The component loop of `validate_path`: return the error of the first
offending component. -/
def checkComponents : List PathComp → Except PathValidationError Unit
  | [] => .ok ()
  | PathComp.normal _ :: rest => checkComponents rest
  | PathComp.parentDir :: _ => .error .containsParentDir
  | PathComp.rootDir :: _ => .error .absolutePath
  | PathComp.curDir :: rest => checkComponents rest

/-- `validate_path` from src/transfer/security.rs, lines 47-76: reject
empty, then NUL bytes, then absolute paths, then walk the components. -/
def validate_path (path : List Char) : Except PathValidationError Unit :=
  if path = [] then .error .empty
  else if nulChar ∈ path then .error .nullByte
  else if isAbsolute path then .error .absolutePath
  else checkComponents (componentsOf path)

/-- `validate_filename` from src/transfer/security.rs, lines 80-101:
the same rules applied to a single name; no absolute-path check before
the component walk. -/
def validate_filename (filename : List Char) : Except PathValidationError Unit :=
  if filename = [] then .error .empty
  else if nulChar ∈ filename then .error .nullByte
  else checkComponents (componentsOf filename)

/-! ## src/transfer/manifest.rs -/

/-- `FileEntry` from src/transfer/manifest.rs. -/
structure FileEntry where
  index : Nat
  name : List Char
  full_path : List Char
  relative_path : List Char
  size : Nat
  nonce : List Char
  sha256 : List Char
deriving DecidableEq, Repr

/-- `Manifest` from src/transfer/manifest.rs. -/
structure Manifest where
  files : List FileEntry
deriving DecidableEq, Repr

/-- `Path::file_name` on Unix (std, external): the last component when
it is a `Normal` component, otherwise none. -/
def fileNameOf (p : List Char) : Option (List Char) :=
  match (componentsOf p).getLast? with
  | some (PathComp.normal s) => some s
  | _ => none

/-- Render one component back to text. -/
def compText : PathComp → List Char
  | .rootDir => ['/']
  | .curDir => ['.']
  | .parentDir => ['.', '.']
  | .normal s => s

/-- Join components with `/` separators. -/
def joinComps (cs : List PathComp) : List Char :=
  (cs.map compText).intersperse ['/'] |>.flatten

/-- `Path::parent` on Unix (std, external), used only to pick the
default base: the path without its last component. -/
def parentOf (p : List Char) : Option (List Char) :=
  match componentsOf p with
  | [] => none
  | cs => some (joinComps (cs.dropLast))

/-- `Path::strip_prefix(base).unwrap_or(path)` followed by
`to_string_lossy` (std, external): drop the base components when they
are a prefix, otherwise keep the path unchanged. -/
def stripBase (base p : List Char) : List Char :=
  let cb := componentsOf base
  let cp := componentsOf p
  if cb = cp.take cb.length then joinComps (cp.drop cb.length) else p

/-- The fallback file name `"unnamed"`. -/
def unnamedStr : List Char := ['u', 'n', 'n', 'a', 'm', 'e', 'd']

/-- The body of the `for (index, path) in file_paths.iter().enumerate()`
loop of `Manifest::new` (src/transfer/manifest.rs, lines 25-62).  The
file system is a parameter `fs` mapping a path to its size and content
(`none` models a failing `std::fs::metadata`, which propagates as an
error); `ng` is the stream of 7-byte nonces drawn from `Nonce::new`. -/
def manifestEntries (fs : List Char → Option (Nat × List Nat))
    (ng : Nat → List Nat) (base : List Char) :
    Nat → List (List Char) → Except Unit (List FileEntry)
  | _, [] => .ok []
  | idx, p :: rest =>
    match fs p with
    | none => .error ()
    | some (size, content) =>
      match manifestEntries fs ng base (idx + 1) rest with
      | .error e => .error e
      | .ok tail =>
        .ok ({ index := idx,
               name := (fileNameOf p).getD unnamedStr,
               full_path := p,
               relative_path := stripBase base p,
               size := size,
               nonce := b64Encode (ng idx),
               sha256 := hexEncode (sha256Digest content) } :: tail)

/-- `Manifest::new` from src/transfer/manifest.rs: choose the base
(`file_paths[0].parent()` panics on an empty list, modelled as an
error), then build the entries with sequential indices. -/
def Manifest.new (fs : List Char → Option (Nat × List Nat))
    (ng : Nat → List Nat) (filePaths : List (List Char))
    (basePath : Option (List Char)) : Except Unit Manifest :=
  match basePath, filePaths with
  | none, [] => .error ()
  | _, _ =>
    match manifestEntries fs ng
        (basePath.getD ((parentOf (filePaths.headD [])).getD [])) 0 filePaths with
    | .error e => .error e
    | .ok entries => .ok ⟨entries⟩

/-! ## src/transfer/receive_handlers.rs -/

/-- The per-chunk summand of `receive_manifest` (lines 53-61):
`(f.size + CHUNK_SIZE - 1) / CHUNK_SIZE` in `u64` arithmetic, so the
addition wraps modulo `2 ^ 64` (release-profile semantics; a debug
build panics on the overflow instead). -/
def chunksForSize (size : Nat) : Nat :=
  ((size + CHUNK_SIZE) % U64 + (U64 - 1)) % U64 / CHUNK_SIZE

/-- The `total_chunks` computation of `receive_manifest`
(src/transfer/receive_handlers.rs, lines 53-61): the wrapping `u64` sum
of the per-file chunk counts. -/
def receiveTotalChunks (sizes : List Nat) : Nat :=
  (sizes.map chunksForSize).foldl (fun a b => (a + b) % U64) 0

/-- `FileReceiveState` (`ChunkReceiveSession` in src/server/state.rs):
the per-file upload state the chunk handler works on. -/
structure ChunkReceiveSession where
  storage : ChunkStorage
  total_chunks : Nat
  nonce : List Char
  relative_path : List Char
  file_size : Nat
deriving DecidableEq, Repr

/-- The JSON body returned by the chunk upload handler. -/
structure ChunkResponse where
  success : Bool
  duplicate : Bool
  chunk : Nat
  received : Nat
  total : Nat
deriving DecidableEq, Repr

/-- The per-chunk core of `receive_handler`
(src/transfer/receive_handlers.rs, lines 121-167), after session
authentication and registry lookup: adopt the payload nonce when none is
stored yet, answer `duplicate=true` and change nothing when the index
was already stored, otherwise decode the nonce and store the chunk. -/
def receiveChunkCore (st : ChunkReceiveSession) (key : EncryptionKey)
    (payloadNonce : Option (List Char)) (chunkIndex : Nat)
    (chunkData : List Nat) : Except Unit (ChunkResponse × ChunkReceiveSession) :=
  let st1 :=
    match payloadNonce with
    | some ns => if st.nonce = [] then { st with nonce := ns } else st
    | none => st
  if st1.storage.has_chunk chunkIndex then
    .ok ({ success := true, duplicate := true, chunk := chunkIndex,
           received := st1.storage.chunk_count, total := st1.total_chunks }, st1)
  else
    match Nonce.from_base64 st1.nonce with
    | .error e => .error e
    | .ok nonce =>
      match st1.storage.store_chunk chunkIndex chunkData key nonce with
      | .error e => .error e
      | .ok s2 =>
        .ok ({ success := true, duplicate := false, chunk := chunkIndex,
               received := s2.chunk_count, total := st1.total_chunks },
             { st1 with storage := s2 })

/-! ## Spec-side definitions

Definitions written from the words of the specification, used to compare
the code against the spec (refinement direction). -/

/-- Ceiling division as the spec words it. -/
def specCeilDiv (a b : Nat) : Nat :=
  a / b + (if a % b = 0 then 0 else 1)

/-- A component that `validate_path` accepts: `Normal` or `CurDir`. -/
def isNormalOrCur : PathComp → Bool
  | .curDir => true
  | .normal _ => true
  | _ => false

end ArchDrop

namespace ArchDrop

/-! # Theorems -/

/-! ## Session state machine (src/server/session.rs) -/

/-- C2.  The cited `SessionCore::claim` takes no client identity at all:
for a fresh session with token `"t"`, the first claim succeeds, a
repeated claim by the same client fails (the `compare_exchange` from
`false` to `true` cannot succeed twice), and after the claim
`is_active` holds for every client, since no client is recorded.  This
contradicts the claimed idempotence for the claiming client and the
claimed `is_active(t, c2) = false` for other clients — behaviour the
repository's own tests/session_tests.rs asserts. -/
theorem c2_claim_ignores_client :
    ((SessionCore.claim ⟨['t'], false, false⟩ ['t']).fst = true)
    ∧ (((SessionCore.claim ⟨['t'], false, false⟩ ['t']).snd.claim ['t']).fst = false)
    ∧ ((SessionCore.claim ⟨['t'], false, false⟩ ['t']).snd.is_active ['t'] = true) := by
  decide

/-- C3.  `encrypt_chunk_at_position` never produces a ciphertext: the
nonce construction `Nonce::with_counter` panics on every input (both
`copy_from_slice` calls have mismatched slice lengths), so the claimed
encrypt/decrypt round-trip is impossible.  The second conjunct shows the
decrypt side would accept a ciphertext formed with the documented
12-byte nonce, confirming the intent of the claim. -/
theorem c3_encrypt_panics_no_roundtrip :
    (encrypt_chunk_at_position ⟨List.replicate 32 0⟩ ⟨List.replicate 7 0⟩ [72, 105] 0 = none)
    ∧ (decrypt_chunk_at_position ⟨List.replicate 32 0⟩ ⟨List.replicate 7 0⟩
        (aeadEncrypt (List.replicate 32 0)
          (List.replicate 7 0 ++ beBytes4 0 ++ [0]) [72, 105]) 0 = .ok [72, 105]) := by
  decide

/-- C4.  The decrypt side builds the documented nonce
`[7-byte base ‖ 4-byte BE counter ‖ 0x00]`, but `Nonce::with_counter`
(used by `encrypt_chunk_at_position`) copies the 7 base bytes into an
8-byte slice and the 4 counter bytes into a 5-byte slice; both
`copy_from_slice` calls panic, so the encrypt side never forms a nonce
at all. -/
theorem c4_nonce_layout_divergence :
    (buildNonce12 [1, 2, 3, 4, 5, 6, 7] 258 =
      some ([1, 2, 3, 4, 5, 6, 7] ++ beBytes4 258 ++ [0]))
    ∧ (Nonce.with_counter ⟨[1, 2, 3, 4, 5, 6, 7]⟩ 258 = none) := by
  decide

/-- C9 counterexample.  Starting from a fresh session: claim, complete,
then complete again.  The second `complete` still returns `true`
although `is_active` is already `false` — `SessionCore::complete` checks
only the token and the `active` flag, never the `completed` flag, so it
succeeds on an already-Completed session, contrary to the claim. -/
theorem c9_counterexample_double_complete :
    (((((SessionCore.claim ⟨['t'], false, false⟩ ['t']).snd.complete ['t']).snd).complete ['t']).fst = true)
    ∧ ((((SessionCore.claim ⟨['t'], false, false⟩ ['t']).snd.complete ['t']).snd).is_active ['t'] = false) := by
  decide

/-- C9 as amended.  `SessionCore::complete(token)` succeeds exactly when
the token matches and the session has been claimed (`active` is set),
regardless of whether it is already completed; on success the
`completed` flag is set, on failure the state is unchanged. -/
theorem c9_complete_amended (s : SessionCore) (t : List Char) :
    ((s.complete t).fst = true ↔ t = s.token ∧ s.active = true)
    ∧ ((s.complete t).fst = true → (s.complete t).snd.completed = true)
    ∧ ((s.complete t).fst = false → (s.complete t).snd = s) := by
  by_cases h1 : t = s.token
  · by_cases h2 : s.active
    · simp [SessionCore.complete, h1, h2]
    · simp [SessionCore.complete, h1, h2]
  · simp [SessionCore.complete, h1]

/-- Witness for the amended C9, at a claimed, not yet completed
session. -/
theorem c9_complete_witness :
    (SessionCore.complete ⟨['t'], true, false⟩ ['t']).fst = true :=
  (c9_complete_amended ⟨['t'], true, false⟩ ['t']).1.mpr (by decide)

/-! ## Total chunk count (src/transfer/receive_handlers.rs) -/

/-- C8 counterexample.  The handler computes
`(size + CHUNK_SIZE - 1) / CHUNK_SIZE` in `u64` arithmetic; for a
client-supplied size of `2^64 - 1` the addition wraps and the entry
contributes 0 chunks, while the ceiling of the spec is nonzero. -/
theorem c8_counterexample_overflow :
    receiveTotalChunks [2 ^ 64 - 1] = 0
    ∧ specCeilDiv (2 ^ 64 - 1) CHUNK_SIZE = 17592186044416 := by
  constructor
  · decide
  · decide

/-- `chunksForSize` agrees with the plain expression when the addition
does not overflow `u64`. -/
theorem chunksForSize_no_overflow (s : Nat) (h : s + CHUNK_SIZE ≤ U64) :
    chunksForSize s = (s + CHUNK_SIZE - 1) / CHUNK_SIZE := by
  unfold chunksForSize CHUNK_SIZE U64 at *
  omega

/-- `(a + b - 1) / b` is ceiling division. -/
theorem add_sub_one_div_eq_specCeilDiv (a : Nat) :
    (a + CHUNK_SIZE - 1) / CHUNK_SIZE = specCeilDiv a CHUNK_SIZE := by
  unfold specCeilDiv CHUNK_SIZE
  by_cases h : a % (1024 * 1024) = 0 <;> simp [h] <;> omega

/-- A wrapping left fold of additions equals the plain sum while the sum
stays below the modulus. -/
theorem foldl_wrapping_sum (L : List Nat) :
    ∀ a, a + L.sum < U64 → L.foldl (fun x y => (x + y) % U64) a = a + L.sum := by
  induction L with
  | nil => simp
  | cons b rest ih =>
    intro a h
    rw [List.sum_cons] at h
    have hb : (a + b) % U64 = a + b := Nat.mod_eq_of_lt (by omega)
    simp only [List.foldl_cons, hb, List.sum_cons]
    rw [ih (a + b) (by omega)]
    omega

/-- C8 as amended.  When no per-entry addition overflows `u64` and the
true total fits in `u64`, the handler's total equals
`Σ ceil(size_i / CHUNK_SIZE)`; an entry of size 0 contributes 0 chunks.
(The amendment is forced by the wrapping `u64` arithmetic shown in the
counterexample; a debug build would panic on the same input instead.) -/
theorem c8_total_chunks_amended (sizes : List Nat)
    (hsz : ∀ s ∈ sizes, s + CHUNK_SIZE ≤ U64)
    (hsum : (sizes.map (fun s => specCeilDiv s CHUNK_SIZE)).sum < U64) :
    receiveTotalChunks sizes = (sizes.map (fun s => specCeilDiv s CHUNK_SIZE)).sum
    ∧ chunksForSize 0 = 0 := by
  constructor
  · unfold receiveTotalChunks
    have hmap : sizes.map chunksForSize = sizes.map (fun s => specCeilDiv s CHUNK_SIZE) := by
      apply List.map_congr_left
      intro s hs
      rw [chunksForSize_no_overflow s (hsz s hs), add_sub_one_div_eq_specCeilDiv]
    rw [hmap]
    have := foldl_wrapping_sum (sizes.map (fun s => specCeilDiv s CHUNK_SIZE)) 0
      (by simpa using hsum)
    simpa using this
  · decide

/-- Witness for the amended C8 at the sizes of spec scenario 2. -/
theorem c8_total_chunks_witness :
    receiveTotalChunks [1048577, 0] =
      ([1048577, 0].map (fun s => specCeilDiv s CHUNK_SIZE)).sum
    ∧ chunksForSize 0 = 0 :=
  c8_total_chunks_amended [1048577, 0]
    (by decide) (by decide)

/-! ## Chunk storage (src/transfer/storage.rs) -/

/-- Inserting into the chunk map updates exactly the inserted key. -/
theorem lookupChunk_insertChunk (m : AssocChunks) (k j : Nat) (v : List Nat) :
    lookupChunk (insertChunk m k v) j = if j = k then some v else lookupChunk m j := by
  induction m with
  | nil =>
    by_cases h : j = k
    · simp [insertChunk, lookupChunk, h]
    · simp [insertChunk, lookupChunk, h, Ne.symm h]
  | cons p rest ih =>
    by_cases hpk : p.fst = k
    · by_cases hj : j = k
      · simp [insertChunk, lookupChunk, hpk, hj]
      · have hpj : ¬p.fst = j := by rw [hpk]; exact Ne.symm hj
        simp [insertChunk, lookupChunk, hpk, hj, Ne.symm hj, hpj]
    · by_cases hpj : p.fst = j
      · have hjk : ¬j = k := fun h => hpk (hpj.trans h)
        simp [insertChunk, lookupChunk, hpk, hpj, hjk]
      · simp [insertChunk, lookupChunk, hpk, hpj, ih]

/-- Storing a list of chunks into the in-memory variant never fails and
folds the map inserts. -/
theorem storeAll_memory (key : EncryptionKey) (nonce : Nonce) :
    ∀ (L : List (Nat × List Nat)) (m : AssocChunks),
      storeAll key nonce (ChunkStorage.memory m) L
        = .ok (ChunkStorage.memory
            (L.foldl (fun acc p => insertChunk acc p.fst p.snd) m)) := by
  intro L
  induction L with
  | nil => intro m; rfl
  | cons p rest ih =>
    intro m
    obtain ⟨i, d⟩ := p
    simp [storeAll, ChunkStorage.store_chunk, ih]

/-- After folding inserts for every index of `order` (with ciphertext
determined by the index), a lookup finds exactly the indices of
`order`. -/
theorem lookupChunk_storeFold (ct : Nat → List Nat) :
    ∀ (order : List Nat) (m : AssocChunks) (j : Nat),
      lookupChunk (order.foldl (fun acc i => insertChunk acc i (ct i)) m) j
        = if j ∈ order then some (ct j) else lookupChunk m j := by
  intro order
  induction order with
  | nil => simp
  | cons i rest ih =>
    intro m j
    simp only [List.foldl_cons]
    rw [ih]
    by_cases hj : j ∈ rest
    · simp [hj]
    · by_cases hji : j = i
      · simp [hj, hji, lookupChunk_insertChunk]
      · simp [hj, hji, lookupChunk_insertChunk]

/-- The finalize loop of the `Memory` variant assembles the plaintexts
in index order when every index is present and decrypts. -/
theorem memAssemble_ok (chunks : AssocChunks) (key : EncryptionKey) (nonce : Nonce)
    (ct pt : Nat → List Nat) :
    ∀ idxs : List Nat,
      (∀ i ∈ idxs, lookupChunk chunks i = some (ct i)) →
      (∀ i ∈ idxs, decrypt_chunk_at_position key nonce (ct i) i = .ok (pt i)) →
      memAssemble chunks key nonce idxs = .ok (idxs.map pt).flatten := by
  intro idxs
  induction idxs with
  | nil => intro _ _; rfl
  | cons i rest ih =>
    intro h1 h2
    have e1 := h1 i (by simp)
    have e2 := h2 i (by simp)
    have e3 := ih (fun j hj => h1 j (by simp [hj])) (fun j hj => h2 j (by simp [hj]))
    simp [memAssemble, e1, e2, e3]

/-- The finalize loop of the `Memory` variant fails whenever some
requested index is missing from the map. -/
theorem memAssemble_missing (chunks : AssocChunks) (key : EncryptionKey) (nonce : Nonce) :
    ∀ idxs : List Nat, (∃ i ∈ idxs, lookupChunk chunks i = none) →
      isOkE (memAssemble chunks key nonce idxs) = false := by
  intro idxs
  induction idxs with
  | nil => rintro ⟨i, hi, _⟩; simp at hi
  | cons i rest ih =>
    rintro ⟨j, hj, hnone⟩
    rcases List.mem_cons.mp hj with rfl | hjr
    · simp [memAssemble, hnone, isOkE]
    · simp only [memAssemble]
      cases hl : lookupChunk chunks i with
      | none => simp [isOkE]
      | some enc =>
        cases hd : decrypt_chunk_at_position key nonce enc i with
        | error e => simp [hd, isOkE]
        | ok dec =>
          have hrest := ih ⟨j, hjr, hnone⟩
          cases hm : memAssemble chunks key nonce rest with
          | error e => simp [hd, hm, isOkE]
          | ok tail => rw [hm] at hrest; simp [isOkE] at hrest

/-- C1 counterexample.  A file at exactly `MEMORY_THRESHOLD` gets the
`DirectWrite` variant, whose `store_chunk` appends the decrypted bytes
at the current end of the file (`write_all`, no seek).  Storing the
2-chunk file `[1] ++ [2]` in arrival order `[chunk 1, chunk 0]` and
finalizing yields the file `[2, 1]`, not the original `[1, 2]`: the
chunk plaintext lands at the arrival offset, not at
`index * CHUNK_SIZE`. -/
theorem c1_counterexample_directwrite :
    (Except.map FinalizeResult.file
      ((storeAll ⟨List.replicate 32 0⟩ ⟨List.replicate 7 0⟩
          (ChunkStorage.new MEMORY_THRESHOLD ['d']).fst
          [(1, aeadEncrypt (List.replicate 32 0) (List.replicate 7 0 ++ beBytes4 1 ++ [0]) [2]),
           (0, aeadEncrypt (List.replicate 32 0) (List.replicate 7 0 ++ beBytes4 0 ++ [0]) [1])]).bind
        (fun st => st.finalize ['d'] ⟨List.replicate 32 0⟩ ⟨List.replicate 7 0⟩ 2))
      = .ok [2, 1])
    ∧ ([2, 1] : List Nat) ≠ [1, 2] := by
  decide

/-- C1 as amended.  For a file below `MEMORY_THRESHOLD` (the in-memory
variant), storing the encrypted chunks in any permutation of `0..N` and
then finalizing writes the destination file as the concatenation of the
chunk plaintexts in index order — equal to the original file — and
returns its hex SHA-256.  (For `file_size >= MEMORY_THRESHOLD` the
counterexample shows the chunks land at arrival offsets instead.) -/
theorem c1_memory_order_independence
    (key : EncryptionKey) (nonce : Nonce) (fileSize : Nat) (destPath : List Char)
    (N : Nat) (ct pt : Nat → List Nat) (order : List Nat)
    (hsize : fileSize < MEMORY_THRESHOLD)
    (hperm : order.Perm (List.range N))
    (hdec : ∀ i, i < N → decrypt_chunk_at_position key nonce (ct i) i = .ok (pt i)) :
    ∃ st, storeAll key nonce (ChunkStorage.new fileSize destPath).fst
            (order.map fun i => (i, ct i)) = .ok st
      ∧ st.finalize destPath key nonce N =
          .ok ⟨hexEncode (sha256Digest ((List.range N).map pt).flatten),
               ((List.range N).map pt).flatten, [FsOp.createFile destPath]⟩ := by
  have hnew : (ChunkStorage.new fileSize destPath).fst = ChunkStorage.memory [] := by
    simp [ChunkStorage.new, hsize]
  rw [hnew, storeAll_memory]
  refine ⟨_, rfl, ?_⟩
  have hfold : ∀ j, lookupChunk
      ((order.map fun i => (i, ct i)).foldl (fun acc p => insertChunk acc p.fst p.snd) []) j
      = if j ∈ order then some (ct j) else none := by
    intro j
    rw [List.foldl_map]
    simpa using lookupChunk_storeFold ct order [] j
  simp only [ChunkStorage.finalize]
  rw [memAssemble_ok _ _ _ ct pt (List.range N)
    (fun i hi => by
      rw [hfold i, if_pos (hperm.mem_iff.mpr hi)])
    (fun i hi => hdec i (List.mem_range.mp hi))]

/-- Witness for the amended C1: a three-chunk file stored in the order
`[2, 0, 1]`. -/
theorem c1_memory_order_independence_witness :
    ∃ st, storeAll ⟨List.replicate 32 0⟩ ⟨List.replicate 7 0⟩
            (ChunkStorage.new 0 ['d']).fst
            ([2, 0, 1].map fun i =>
              (i, aeadEncrypt (List.replicate 32 0)
                    (List.replicate 7 0 ++ beBytes4 i ++ [0]) [i + 1])) = .ok st
      ∧ st.finalize ['d'] ⟨List.replicate 32 0⟩ ⟨List.replicate 7 0⟩ 3 =
          .ok ⟨hexEncode (sha256Digest ((List.range 3).map (fun i => [i + 1])).flatten),
               ((List.range 3).map (fun i => [i + 1])).flatten, [FsOp.createFile ['d']]⟩ :=
  c1_memory_order_independence ⟨List.replicate 32 0⟩ ⟨List.replicate 7 0⟩ 0 ['d'] 3
    (fun i => aeadEncrypt (List.replicate 32 0)
      (List.replicate 7 0 ++ beBytes4 i ++ [0]) [i + 1])
    (fun i => [i + 1]) [2, 0, 1]
    (by decide)
    (by decide)
    (by intro i hi; interval_cases i <;> decide)

/-- C10.  For a file size below `MEMORY_THRESHOLD`, `ChunkStorage::new`
returns the in-memory variant and performs no file-system operation;
its `store_chunk` only inserts the raw ciphertext into the map (for any
key and nonce, no decryption happens and nothing is written);
`finalize` performs the only file creation, fails when any index below
`total_chunks` is absent, and on success writes the decrypted chunks in
index order and returns the hex SHA-256 of that plaintext. -/
theorem c10_memory_storage_behavior
    (fileSize : Nat) (destPath : List Char) (key : EncryptionKey) (nonce : Nonce)
    (hsize : fileSize < MEMORY_THRESHOLD) :
    (ChunkStorage.new fileSize destPath = (ChunkStorage.memory [], []))
    ∧ (∀ m i data, ChunkStorage.store_chunk (.memory m) i data key nonce
         = .ok (.memory (insertChunk m i data)))
    ∧ (∀ m total i, i < total → lookupChunk m i = none →
         isOkE (ChunkStorage.finalize (.memory m) destPath key nonce total) = false)
    ∧ (∀ m total (ct pt : Nat → List Nat),
        (∀ i, i < total → lookupChunk m i = some (ct i)) →
        (∀ i, i < total → decrypt_chunk_at_position key nonce (ct i) i = .ok (pt i)) →
        ChunkStorage.finalize (.memory m) destPath key nonce total =
          .ok ⟨hexEncode (sha256Digest ((List.range total).map pt).flatten),
               ((List.range total).map pt).flatten, [FsOp.createFile destPath]⟩) := by
  refine ⟨by simp [ChunkStorage.new, hsize], fun m i data => rfl, ?_, ?_⟩
  · intro m total i hi hnone
    have hmiss : isOkE (memAssemble m key nonce (List.range total)) = false :=
      memAssemble_missing m key nonce (List.range total)
        ⟨i, List.mem_range.mpr hi, hnone⟩
    simp only [ChunkStorage.finalize]
    cases hm : memAssemble m key nonce (List.range total) with
    | error e => simp [isOkE]
    | ok bytes => rw [hm] at hmiss; simp [isOkE] at hmiss
  · intro m total ct pt h1 h2
    simp only [ChunkStorage.finalize]
    rw [memAssemble_ok _ _ _ ct pt (List.range total)
      (fun i hi => h1 i (List.mem_range.mp hi))
      (fun i hi => h2 i (List.mem_range.mp hi))]

/-- Witness for C10 at a zero-byte file. -/
theorem c10_memory_storage_witness :
    ChunkStorage.new 0 ['d'] = (ChunkStorage.memory [], []) :=
  (c10_memory_storage_behavior 0 ['d'] ⟨[]⟩ ⟨[]⟩ (by decide)).1

/-! ## Duplicate chunk uploads (src/transfer/receive_handlers.rs) -/

/-- C5.  When the chunk index was already stored, the receive handler
answers success with `duplicate = true` and leaves the storage — the
stored bytes and the set of received indices — untouched. -/
theorem c5_duplicate_chunk_idempotent (st : ChunkReceiveSession) (key : EncryptionKey)
    (pn : Option (List Char)) (i : Nat) (data : List Nat)
    (hdup : st.storage.has_chunk i = true) :
    ∃ resp st2, receiveChunkCore st key pn i data = .ok (resp, st2)
      ∧ resp.success = true ∧ resp.duplicate = true ∧ st2.storage = st.storage := by
  cases pn with
  | none =>
    have heq : receiveChunkCore st key none i data =
        .ok ({ success := true, duplicate := true, chunk := i,
               received := st.storage.chunk_count, total := st.total_chunks }, st) := by
      simp [receiveChunkCore, hdup]
    exact ⟨_, _, heq, rfl, rfl, rfl⟩
  | some ns =>
    by_cases h : st.nonce = []
    · have heq : receiveChunkCore st key (some ns) i data =
          .ok ({ success := true, duplicate := true, chunk := i,
                 received := st.storage.chunk_count, total := st.total_chunks },
               { st with nonce := ns }) := by
        simp [receiveChunkCore, h, hdup]
      exact ⟨_, _, heq, rfl, rfl, rfl⟩
    · have heq : receiveChunkCore st key (some ns) i data =
          .ok ({ success := true, duplicate := true, chunk := i,
                 received := st.storage.chunk_count, total := st.total_chunks }, st) := by
        simp [receiveChunkCore, h, hdup]
      exact ⟨_, _, heq, rfl, rfl, rfl⟩

/-- Witness for C5: re-posting chunk 0 of a file that already stored
chunk 0. -/
theorem c5_duplicate_chunk_witness :
    ∃ resp st2,
      receiveChunkCore ⟨ChunkStorage.memory [(0, [5])], 1, ['A'], ['f'], 5⟩
          ⟨[]⟩ none 0 [9] = .ok (resp, st2)
      ∧ resp.success = true ∧ resp.duplicate = true
      ∧ st2.storage =
          (⟨ChunkStorage.memory [(0, [5])], 1, ['A'], ['f'], 5⟩ : ChunkReceiveSession).storage :=
  c5_duplicate_chunk_idempotent
    ⟨ChunkStorage.memory [(0, [5])], 1, ['A'], ['f'], 5⟩ ⟨[]⟩ none 0 [9] (by decide)

/-! ## Path validation (src/transfer/security.rs) -/

/-- A component walk over only `Normal` and `CurDir` components
succeeds. -/
theorem checkComponents_ok_all :
    ∀ cs : List PathComp, (∀ c ∈ cs, isNormalOrCur c = true) →
      checkComponents cs = .ok () := by
  intro cs
  induction cs with
  | nil => intro _; rfl
  | cons c rest ih =>
    intro h
    cases c with
    | normal s => exact ih (fun d hd => h d (by simp [hd]))
    | curDir => exact ih (fun d hd => h d (by simp [hd]))
    | parentDir =>
      have hh := h PathComp.parentDir (by simp)
      simp [isNormalOrCur] at hh
    | rootDir =>
      have hh := h PathComp.rootDir (by simp)
      simp [isNormalOrCur] at hh

/-- A component walk that meets a `ParentDir` component never
succeeds. -/
theorem checkComponents_parentDir :
    ∀ cs : List PathComp, PathComp.parentDir ∈ cs →
      isOkE (checkComponents cs) = false := by
  intro cs
  induction cs with
  | nil => intro h; simp at h
  | cons c rest ih =>
    intro h
    cases c with
    | normal s =>
      rcases List.mem_cons.mp h with h' | h'
      · exact absurd h' (by simp)
      · exact ih h'
    | curDir =>
      rcases List.mem_cons.mp h with h' | h'
      · exact absurd h' (by simp)
      · exact ih h'
    | parentDir => rfl
    | rootDir => rfl

/-- C6.  `validate_path` rejects the empty string, any string containing
a NUL byte, any absolute path and any path with a `..` component, and
accepts every nonempty, NUL-free, relative path whose components are
all `Normal` or `.`; with the concrete examples of the spec. -/
theorem c6_validate_path_spec :
    (validate_path [] = .error .empty)
    ∧ (∀ s, nulChar ∈ s → validate_path s = .error .nullByte)
    ∧ (∀ s, nulChar ∉ s → isAbsolute s = true → validate_path s = .error .absolutePath)
    ∧ (∀ s, PathComp.parentDir ∈ componentsOf s → isOkE (validate_path s) = false)
    ∧ (∀ s, s ≠ [] → nulChar ∉ s → isAbsolute s = false →
        (componentsOf s).all isNormalOrCur = true → validate_path s = .ok ())
    ∧ (validate_path ['.', '.', '/', 'x'] = .error .containsParentDir)
    ∧ (validate_path ['/', 'e', 't', 'c', '/', 'p', 'a', 's', 's', 'w', 'd'] = .error .absolutePath)
    ∧ (validate_path ['a', '/', '.', '.', '/', '.', '.', '/', 'b'] = .error .containsParentDir)
    ∧ (validate_path ['a', nulChar, 'b'] = .error .nullByte)
    ∧ (validate_path ['a', '/', '.', '/', 'b'] = .ok ())
    ∧ (validate_path ['a', '/', 'b'] = .ok ()) := by
  refine ⟨by decide, ?_, ?_, ?_, ?_, by decide, by decide, by decide, by decide,
    by decide, by decide⟩
  · intro s h
    have hne : s ≠ [] := by rintro rfl; simp at h
    simp [validate_path, hne, h]
  · intro s hnul habs
    have hne : s ≠ [] := by rintro rfl; simp [isAbsolute] at habs
    simp [validate_path, hne, hnul, habs]
  · intro s hmem
    by_cases h0 : s = []
    · rw [h0] at hmem
      exact absurd hmem (by decide)
    by_cases h1 : nulChar ∈ s
    · simp [validate_path, h0, h1, isOkE]
    by_cases h2 : isAbsolute s = true
    · simp [validate_path, h0, h1, h2, isOkE]
    · simp only [validate_path, if_neg h0, if_neg h1, if_neg h2]
      exact checkComponents_parentDir _ hmem
  · intro s h0 h1 h2 hall
    have hne : ¬isAbsolute s = true := by simp [h2]
    simp only [validate_path, if_neg h0, if_neg h1, if_neg hne]
    exact checkComponents_ok_all _ (by simpa [List.all_eq_true] using hall)

/-- Witness for C6 at concrete rejected and accepted paths. -/
theorem c6_validate_path_spec_witness :
    (validate_path ['b', nulChar] = .error .nullByte)
    ∧ (validate_path ['/', 'q'] = .error .absolutePath)
    ∧ (isOkE (validate_path ['q', '/', '.', '.']) = false)
    ∧ (validate_path ['x', '/', 'y'] = .ok ()) :=
  ⟨c6_validate_path_spec.2.1 ['b', nulChar] (by decide),
   c6_validate_path_spec.2.2.1 ['/', 'q'] (by decide) (by decide),
   c6_validate_path_spec.2.2.2.1 ['q', '/', '.', '.'] (by decide),
   c6_validate_path_spec.2.2.2.2.1 ['x', '/', 'y'] (by decide) (by decide)
     (by decide) (by decide)⟩

/-! ## Base64 model properties -/

/-- The alphabet lookup inverts the alphabet indexing on six-bit
values. -/
theorem sextet_charOf : ∀ v : Nat, v < 64 → sextetOfChar (charOfSextet v) = some v := by
  decide

/-- Decoding inverts encoding on 7-byte inputs with byte values below
256 (the shape of a nonce base). -/
theorem b64_roundtrip7 (a b c d e f g : Nat)
    (ha : a < 256) (hb : b < 256) (hc : c < 256) (hd : d < 256)
    (he : e < 256) (hf : f < 256) (hg : g < 256) :
    b64Decode (b64Encode [a, b, c, d, e, f, g]) = some [a, b, c, d, e, f, g] := by
  have s1 := sextet_charOf (a / 4) (by omega)
  have s2 := sextet_charOf (a % 4 * 16 + b / 16) (by omega)
  have s3 := sextet_charOf (b % 16 * 4 + c / 64) (by omega)
  have s4 := sextet_charOf (c % 64) (by omega)
  have s5 := sextet_charOf (d / 4) (by omega)
  have s6 := sextet_charOf (d % 4 * 16 + e / 16) (by omega)
  have s7 := sextet_charOf (e % 16 * 4 + f / 64) (by omega)
  have s8 := sextet_charOf (f % 64) (by omega)
  have s9 := sextet_charOf (g / 4) (by omega)
  have s10 := sextet_charOf (g % 4 * 16) (by omega)
  simp only [b64Encode, b64Decode, s1, s2, s3, s4, s5, s6, s7, s8, s9, s10,
    Option.bind_some, Option.some_bind, Option.pure_def]
  refine congrArg some ?_
  simp only [List.cons.injEq, and_true]
  refine ⟨?_, ?_, ?_, ?_, ?_, ?_, ?_⟩ <;> omega

/-- Base64 encoding is injective on 7-byte inputs with byte values below
256. -/
theorem b64Encode_inj7 (x y : List Nat) (hx7 : x.length = 7) (hy7 : y.length = 7)
    (hxv : ∀ v ∈ x, v < 256) (hyv : ∀ v ∈ y, v < 256)
    (henc : b64Encode x = b64Encode y) : x = y := by
  rcases x with _ | ⟨a1, _ | ⟨a2, _ | ⟨a3, _ | ⟨a4, _ | ⟨a5, _ | ⟨a6, _ | ⟨a7, xt⟩⟩⟩⟩⟩⟩⟩ <;>
    simp at hx7
  rcases y with _ | ⟨b1, _ | ⟨b2, _ | ⟨b3, _ | ⟨b4, _ | ⟨b5, _ | ⟨b6, _ | ⟨b7, yt⟩⟩⟩⟩⟩⟩⟩ <;>
    simp at hy7
  subst hx7; subst hy7
  have r1 := b64_roundtrip7 a1 a2 a3 a4 a5 a6 a7
    (hxv _ (by simp)) (hxv _ (by simp)) (hxv _ (by simp)) (hxv _ (by simp))
    (hxv _ (by simp)) (hxv _ (by simp)) (hxv _ (by simp))
  have r2 := b64_roundtrip7 b1 b2 b3 b4 b5 b6 b7
    (hyv _ (by simp)) (hyv _ (by simp)) (hyv _ (by simp)) (hyv _ (by simp))
    (hyv _ (by simp)) (hyv _ (by simp)) (hyv _ (by simp))
  rw [henc, r2] at r1
  exact (Option.some.injEq _ _ ▸ r1).symm ▸ rfl

/-! ## Path component properties -/

/-- Every part produced by `splitSlash` is slash-free and drawn from the
original string. -/
theorem splitSlash_mem : ∀ (s q : List Char), q ∈ splitSlash s →
    '/' ∉ q ∧ ∀ c ∈ q, c ∈ s := by
  intro s
  induction s with
  | nil =>
    intro q hq
    simp [splitSlash] at hq
    subst hq
    simp
  | cons c rest ih =>
    intro q hq
    simp only [splitSlash] at hq
    by_cases hc : c = '/'
    · rw [if_pos hc] at hq
      rcases List.mem_cons.mp hq with rfl | hq'
      · simp
      · obtain ⟨h1, h2⟩ := ih q hq'
        exact ⟨h1, fun d hd => by simp [h2 d hd]⟩
    · rw [if_neg hc] at hq
      cases hsp : splitSlash rest with
      | nil =>
        rw [hsp] at hq
        simp at hq
        subst hq
        refine ⟨?_, ?_⟩
        · intro hmem
          rcases List.mem_singleton.mp hmem with rfl
          exact hc rfl
        · intro d hd
          rcases List.mem_singleton.mp hd with rfl
          simp
      | cons p ps =>
        rw [hsp] at hq
        rcases List.mem_cons.mp hq with rfl | hq'
        · have hp := ih p (by rw [hsp]; simp)
          refine ⟨?_, ?_⟩
          · intro hmem
            rcases List.mem_cons.mp hmem with h | h
            · exact hc h.symm
            · exact hp.1 h
          · intro d hd
            rcases List.mem_cons.mp hd with rfl | hd'
            · simp
            · simp [hp.2 d hd']
        · have hp := ih q (by rw [hsp]; simp [hq'])
          exact ⟨hp.1, fun d hd => by simp [hp.2 d hd]⟩

/-- A slash-free string splits into itself. -/
theorem splitSlash_of_noSlash : ∀ s : List Char, '/' ∉ s → splitSlash s = [s] := by
  intro s
  induction s with
  | nil => intro _; rfl
  | cons c rest ih =>
    intro h
    have hc : ¬c = '/' := fun hh => h (by rw [hh]; simp)
    have hrest : '/' ∉ rest := fun hh => h (by simp [hh])
    simp only [splitSlash, if_neg hc, ih hrest]

/-- A `Normal` component produced by normalization comes from the parts
and is neither `.` nor `..`. -/
theorem normal_mem_normalizeParts :
    ∀ (parts : List (List Char)) (b : Bool) (q : List Char),
      PathComp.normal q ∈ normalizeParts parts b →
      q ∈ parts ∧ q ≠ ['.'] ∧ q ≠ ['.', '.'] := by
  intro parts
  induction parts with
  | nil => intro b q h; simp [normalizeParts] at h
  | cons p rest ih =>
    intro b q h
    simp only [normalizeParts] at h
    by_cases hp1 : p = ['.']
    · rw [if_pos hp1] at h
      have h' : PathComp.normal q ∈ normalizeParts rest false := by
        rcases List.mem_append.mp h with h | h
        · cases b <;> simp at h
        · exact h
      obtain ⟨hq, h2, h3⟩ := ih false q h'
      exact ⟨by simp [hq], h2, h3⟩
    · rw [if_neg hp1] at h
      by_cases hp2 : p = ['.', '.']
      · rw [if_pos hp2] at h
        rcases List.mem_cons.mp h with h | h
        · exact absurd h (by simp)
        · obtain ⟨hq, h2, h3⟩ := ih false q h
          exact ⟨by simp [hq], h2, h3⟩
      · rw [if_neg hp2] at h
        rcases List.mem_cons.mp h with h | h
        · have hqp : q = p := by simpa using h
          subst hqp
          exact ⟨by simp, hp1, hp2⟩
        · obtain ⟨hq, h2, h3⟩ := ih false q h
          exact ⟨by simp [hq], h2, h3⟩

/-- A `Normal` component of a path is a nonempty, slash-free part of the
path text, distinct from `.` and `..`. -/
theorem normal_mem_componentsOf (s q : List Char)
    (h : PathComp.normal q ∈ componentsOf s) :
    q ≠ [] ∧ '/' ∉ q ∧ q ≠ ['.'] ∧ q ≠ ['.', '.'] ∧ ∀ c ∈ q, c ∈ s := by
  unfold componentsOf at h
  have h' : PathComp.normal q ∈
      normalizeParts ((splitSlash s).filter (fun t => t ≠ [])) (!(s.head? = some '/' : Bool)) := by
    rcases List.mem_append.mp h with h | h
    · exact absurd h (by split <;> simp)
    · exact h
  obtain ⟨hqparts, hdot, hdd⟩ := normal_mem_normalizeParts _ _ _ h'
  have hf := List.mem_filter.mp hqparts
  obtain ⟨hsl, hmem⟩ := splitSlash_mem s q hf.1
  refine ⟨by simpa using hf.2, hsl, hdot, hdd, hmem⟩

/-- The last component of a list, when present, is a member. -/
theorem getLastQ_mem (l : List PathComp) (a : PathComp)
    (h : l.getLast? = some a) : a ∈ l := by
  obtain ⟨hne, heq⟩ := List.mem_getLast?_eq_getLast (x := a) (by rw [h]; rfl)
  rw [heq]
  exact List.getLast_mem hne

/-- For any NUL-free path, the name `Manifest::new` derives
(`file_name` with fallback `"unnamed"`) passes `validate_filename`. -/
theorem validate_filename_fileName (p : List Char) (hnul : nulChar ∉ p) :
    validate_filename ((fileNameOf p).getD unnamedStr) = .ok () := by
  cases hfn : fileNameOf p with
  | none => simp [hfn]; decide
  | some q =>
    have hmem : PathComp.normal q ∈ componentsOf p := by
      unfold fileNameOf at hfn
      cases hlast : (componentsOf p).getLast? with
      | none => rw [hlast] at hfn; simp at hfn
      | some comp =>
        rw [hlast] at hfn
        cases comp with
        | normal r =>
          have : r = q := by simpa using hfn
          subst this
          exact getLastQ_mem _ _ hlast
        | rootDir => simp at hfn
        | curDir => simp at hfn
        | parentDir => simp at hfn
    obtain ⟨hne, hsl, hdot, hdd, hsub⟩ := normal_mem_componentsOf p q hmem
    have hqnul : nulChar ∉ q := fun hh => hnul (hsub _ hh)
    have habs : ¬(q.head? = some '/') := by
      intro hh
      cases q with
      | nil => simp at hh
      | cons c t =>
        simp at hh
        exact hsl (by simp [hh])
    have hq : componentsOf q = [PathComp.normal q] := by
      unfold componentsOf
      rw [splitSlash_of_noSlash q hsl]
      simp [habs, hne, normalizeParts, hdot, hdd]
    simp [hfn, validate_filename, hne, hqnul, hq, checkComponents]

/-! ## Manifest construction (src/transfer/manifest.rs) -/

/-- Structure of a successful `manifestEntries` run: sequential indices
from the start value, nonces drawn from the stream at the entry index,
and every name derived by `file_name` with the `"unnamed"` fallback from
a path whose metadata lookup succeeded. -/
theorem manifestEntries_ok (fs : List Char → Option (Nat × List Nat))
    (ng : Nat → List Nat) (base : List Char) :
    ∀ (ps : List (List Char)) (k : Nat) (l : List FileEntry),
      manifestEntries fs ng base k ps = .ok l →
      l.map FileEntry.index = List.range' k ps.length
      ∧ l.map FileEntry.nonce = (List.range' k ps.length).map (fun n => b64Encode (ng n))
      ∧ ∀ e ∈ l, ∃ p, fs p ≠ none ∧ e.name = (fileNameOf p).getD unnamedStr := by
  intro ps
  induction ps with
  | nil =>
    intro k l h
    simp only [manifestEntries] at h
    cases h
    simp
  | cons p rest ih =>
    intro k l h
    simp only [manifestEntries] at h
    split at h
    · exact absurd h (by simp)
    · rename_i sc size content heq
      split at h
      · exact absurd h (by simp)
      · rename_i tail hrec
        cases h
        obtain ⟨h1, h2, h3⟩ := ih (k + 1) tail hrec
        refine ⟨?_, ?_, ?_⟩
        · simp [List.range'_succ, h1]
        · simp [List.range'_succ, h2]
        · intro e he
          rcases List.mem_cons.mp he with rfl | he'
          · exact ⟨p, by simp [heq], rfl⟩
          · exact h3 e he'

/-- Distinct list values under an injective-on-range map yield pairwise
distinct images over `List.range`. -/
theorem pairwise_ne_map_range (len : Nat) (f : Nat → List Char)
    (hinj : ∀ i j, i < len → j < len → i ≠ j → f i ≠ f j) :
    List.Pairwise (fun x y => x ≠ y) ((List.range len).map f) := by
  rw [List.pairwise_map]
  exact (List.pairwise_lt_range len).imp_of_mem
    (fun ha hb hlt => hinj _ _ (List.mem_range.mp ha) (List.mem_range.mp hb)
      (Nat.ne_of_lt hlt))

/-- C7 counterexample.  `Manifest::new` never checks the freshly drawn
nonces for distinctness: when the random generator returns the same 7
bytes twice (an event nothing in the code excludes), the produced
manifest carries two identical per-file nonces, violating the pairwise
distinctness of the claimed invariant. -/
theorem c7_counterexample_nonce_collision :
    ∃ m, Manifest.new (fun p => if p.length = 1 then some (1, [7]) else none)
          (fun _ => List.replicate 7 0) [['a'], ['b']] (some []) = .ok m
      ∧ m.files.map FileEntry.nonce =
          [b64Encode (List.replicate 7 0), b64Encode (List.replicate 7 0)]
      ∧ ¬ List.Pairwise (fun x y : List Char => x ≠ y) (m.files.map FileEntry.nonce) := by
  have henc : ∀ (L : List (List Char)) x, L = [x, x] →
      ¬ List.Pairwise (fun a b : List Char => a ≠ b) L := by
    rintro L x rfl hp
    exact (List.pairwise_cons.mp hp).1 x (by simp) rfl
  refine ⟨_, rfl, ?_, ?_⟩
  · decide
  · exact henc _ (b64Encode (List.replicate 7 0)) (by decide)

/-- C7 as amended.  Every manifest the builder produces has sequential
indices `0..len` and names passing `validate_filename` (the operating
system rejects NUL-carrying paths at the metadata call, so every
surviving name is a clean single component or the `"unnamed"`
fallback); the per-file nonces are pairwise distinct **provided** the
freshly generated nonces are pairwise distinct — the builder itself
enforces nothing about them, as the counterexample shows. -/
theorem c7_manifest_invariant_amended
    (fs : List Char → Option (Nat × List Nat)) (ng : Nat → List Nat)
    (paths : List (List Char)) (basePath : Option (List Char)) (m : Manifest)
    (hfs : ∀ p, nulChar ∈ p → fs p = none)
    (hng : ∀ i, (ng i).length = 7 ∧ ∀ v ∈ ng i, v < 256)
    (hdist : ∀ i j, i < paths.length → j < paths.length → i ≠ j → ng i ≠ ng j)
    (hok : Manifest.new fs ng paths basePath = .ok m) :
    m.files.map FileEntry.index = List.range paths.length
    ∧ (∀ e ∈ m.files, validate_filename e.name = .ok ())
    ∧ List.Pairwise (fun x y => x ≠ y) (m.files.map FileEntry.nonce) := by
  unfold Manifest.new at hok
  split at hok
  · exact absurd hok (by simp)
  · split at hok
    · exact absurd hok (by simp)
    · rename_i entries hent
      have hm : m = ⟨entries⟩ := by
        cases hok
        rfl
      subst hm
      obtain ⟨h1, h2, h3⟩ := manifestEntries_ok fs ng _ paths 0 entries hent
      refine ⟨by rw [h1, List.range_eq_range'], ?_, ?_⟩
      · intro e he
        obtain ⟨p, hpfs, hname⟩ := h3 e he
        have hnul : nulChar ∉ p := fun hh => hpfs (hfs p hh)
        rw [hname]
        exact validate_filename_fileName p hnul
      · rw [h2, ← List.range_eq_range']
        refine pairwise_ne_map_range paths.length _ ?_
        intro i j hi hj hne hcontra
        obtain ⟨hi7, hiv⟩ := hng i
        obtain ⟨hj7, hjv⟩ := hng j
        exact hdist i j hi hj hne (b64Encode_inj7 _ _ hi7 hj7 hiv hjv hcontra)

/-- Witness for the amended C7: two files with distinct generated
nonces. -/
theorem c7_manifest_invariant_witness :
    ∃ m, Manifest.new (fun p => if nulChar ∈ p then none else some (1, [7]))
          (fun i => List.replicate 6 0 ++ [i % 256]) [['a'], ['b']] (some []) = .ok m
      ∧ (m.files.map FileEntry.index = List.range 2
         ∧ (∀ e ∈ m.files, validate_filename e.name = .ok ())
         ∧ List.Pairwise (fun x y => x ≠ y) (m.files.map FileEntry.nonce)) := by
  refine ⟨_, rfl, ?_⟩
  exact c7_manifest_invariant_amended
    (fun p => if nulChar ∈ p then none else some (1, [7]))
    (fun i => List.replicate 6 0 ++ [i % 256]) [['a'], ['b']] (some []) _
    (fun p hp => by simp [hp])
    (fun i => ⟨by simp, by
      intro v hv
      rcases List.mem_append.mp hv with h | h
      · have := List.eq_of_mem_replicate h
        omega
      · rcases List.mem_singleton.mp h with rfl
        exact Nat.mod_lt _ (by norm_num)⟩)
    (fun i j hi hj hne => by
      have hi2 : i < 2 := by simpa using hi
      have hj2 : j < 2 := by simpa using hj
      interval_cases i <;> interval_cases j <;>
        first
        | exact absurd rfl hne
        | decide)
    rfl

end ArchDrop
